import Mathlib

/-!
# Verification of the roseingrave data-reconciliation core

This file gives a shallow embedding, in Lean 4, of the data model and the
algorithms of the `roseingrave` repository that the frozen claims are
about, together with theorems settling each claim.

Python dictionaries are embedded as association lists (`List (String × V)`)
with Python's semantics: assignment to an existing key replaces the value
in place (keeping the key's position), assignment to a fresh key appends,
and iteration follows insertion order.  Machine integers are embedded as
`Int`.  Fallible code (Python exceptions) is embedded with `Option` /
`Except`.

Layout: all definitions (the embedding) come first, followed by all
theorems (general lemmas about the embedding, then per-claim theorems,
counterexamples and witnesses).
-/

/-! ## Association lists with Python-dict semantics -/

/-- Lookup of a key, returning the value of its first occurrence
(Python `d[k]` / `d.get(k)`). -/
def alookup {V : Type} (k : String) : List (String × V) → Option V
  | [] => none
  | (k', v) :: t => if k' = k then some v else alookup k t

/-- The keys of an association list, in order (Python `d.keys()`). -/
def akeys {V : Type} (l : List (String × V)) : List String :=
  l.map Prod.fst

/-- Python `d[k] = v`: replace the value of the first occurrence of `k`
in place, or append `(k, v)` if `k` is absent. -/
def ainsert {V : Type} (k : String) (v : V) : List (String × V) → List (String × V)
  | [] => [(k, v)]
  | (k', v') :: t => if k' = k then (k', v) :: t else (k', v') :: ainsert k v t

/-- Python `d.pop(k, None)`: remove the key `k`. -/
def aerase {V : Type} (k : String) : List (String × V) → List (String × V)
  | [] => []
  | (k', v') :: t => if k' = k then aerase k t else (k', v') :: aerase k t

/-!
## PieceData.make_default and PieceData.with_defaults (src/_piece_data.py)

A piece-data document (Python: one dict whose `"bars"` key holds a nested
dict of bar-number → value and whose other keys hold scalar values) is
embedded as a pair of association lists: `fields` for every key except
`"bars"`, and `bars` for the nested bar dict.  This matches the Python
dict observationally: the code always handles the `"bars"` key by a
dedicated branch and skips it in the generic field loop.

The value type `V` is a parameter: `make_default(is_notes=False)` uses
`""` and `make_default(is_notes=True)` uses `{}` as the per-field zero
value; `with_defaults` never inspects values, so the zero value is passed
as the `dflt` argument (chosen by `is_notes` at the call site, which also
controls whether a `"comments"` field exists).
-/

/-- A fixed-shape piece document: scalar-ish fields plus the bar dict. -/
structure FixedDoc (V : Type) where
  fields : List (String × V)
  bars : List (String × V)
deriving DecidableEq, Repr

/-- A raw input document handed to `with_defaults`: its non-`"bars"`
entries in iteration order, and its `"bars"` entry if present. -/
structure RawDoc (V : Type) where
  fields : List (String × V)
  bars? : Option (List (String × V))
deriving DecidableEq, Repr

/-- Embeds `PieceData.make_default`: the canonical default document shape.
`headers` is `self._headers` (the template's `metaDataFields` keys),
`barCount` is `self._bar_count`, and `dflt` is `value()` (the empty
string, or the empty dict when `is_notes`). -/
def makeDefault {V : Type} (headers : List String) (barCount : Nat)
    (isNotes : Bool) (dflt : V) : FixedDoc V :=
  let fs := headers.foldl (fun a k => ainsert k dflt a) []
  let fs := if isNotes then fs else ainsert "comments" dflt fs
  { fields := aerase "bars" fs,
    bars := (List.range barCount).map (fun i => (toString (i + 1), dflt)) }

/-- The `"bars"` branch of `with_defaults`: walk the raw bar dict,
overwrite known bar numbers, record unknown ones in `extra_bars` and
clear found ones from `missing_bars`. -/
def procBars {V : Type} (fb : List (String × V)) (mb eb : List String) :
    List (String × V) → List (String × V) × List String × List String
  | [] => (fb, mb, eb)
  | (k, v) :: t =>
    if (alookup k fb).isSome then
      procBars (ainsert k v fb) (mb.filter (fun x => x ≠ k)) eb t
    else
      procBars fb mb (eb ++ [k]) t

/-- The generic field loop of `with_defaults`: skip `name`/`link`/`bars`,
overwrite known fields, record unknown ones, clear found ones from
`missing_fields`. -/
def procFields {V : Type} (ff : List (String × V)) (mf uf : List String) :
    List (String × V) → List (String × V) × List String × List String
  | [] => (ff, mf, uf)
  | (k, v) :: t =>
    if k = "name" ∨ k = "link" ∨ k = "bars" then
      procFields ff mf uf t
    else if (alookup k ff).isSome then
      procFields (ainsert k v ff) (mf.filter (fun x => x ≠ k)) uf t
    else
      procFields ff mf (uf ++ [k]) t

/-- The diagnostics accumulated by `with_defaults` (the four warned-about
lists). -/
structure Diag where
  missingFields : List String
  missingBars : List String
  extraBars : List String
  unknownFields : List String
deriving DecidableEq, Repr

/-- Embeds `PieceData.with_defaults`: reconcile a raw document against the
default shape, returning the `warning` flag, the fixed document and the
diagnostics. -/
def withDefaults {V : Type} (headers : List String) (barCount : Nat)
    (isNotes : Bool) (dflt : V) (excludeComments : Bool) (raw : RawDoc V) :
    Bool × FixedDoc V × Diag :=
  let fd := makeDefault headers barCount isNotes dflt
  let fields1 := if excludeComments then aerase "comments" fd.fields else fd.fields
  let bres :=
    match raw.bars? with
    | none => (fd.bars, ([] : List String), ([] : List String), false)
    | some rbars =>
      let r := procBars fd.bars (akeys fd.bars) [] rbars
      (r.1, r.2.1, r.2.2, true)
  let fres := procFields fields1 (akeys fields1) [] raw.fields
  let missingFields := fres.2.1 ++ (if bres.2.2.2 then [] else ["bars"])
  let warning := !(missingFields.isEmpty && bres.2.1.isEmpty &&
    bres.2.2.1.isEmpty && fres.2.2.isEmpty)
  (warning, { fields := fres.1, bars := bres.1 },
    ⟨missingFields, bres.2.1, bres.2.2.1, fres.2.2⟩)

/-- The result of reconciling a raw document and then reconciling the
fixed output again with the same arguments (the `with_defaults`
round trip). -/
def roundTripOut {V : Type} (headers : List String) (N : Nat) (isNotes : Bool)
    (dflt : V) (excludeComments : Bool) (raw : RawDoc V) : Bool × FixedDoc V × Diag :=
  let out1 := withDefaults headers N isNotes dflt excludeComments raw
  withDefaults headers N isNotes dflt excludeComments
    ⟨out1.2.1.fields, some out1.2.1.bars⟩

/-!
## Source and Piece (src/_piece.py)

`Source.__init__` / `Piece.__init__` raise `ValueError`; they are
embedded as `Except String`-valued constructors.  The template argument
of `Piece.__init__` only feeds sheet rendering, which is outside these
claims; the template's `defaultBarCount` is passed to `final_bar_count`
as an explicit argument.
-/

/-- Embeds `_max`: the max of two possibly-`None` values. -/
def maxOpt : Option Int → Option Int → Option Int
  | none, b => b
  | some a, none => some a
  | some a, some b => some (max a b)

/-- The `Source` class: name, link, optional bar count, supplemental flag. -/
structure Source where
  name : String
  link : String
  barCount : Option Int
  isSupplemental : Bool
deriving DecidableEq, Repr

/-- Embeds `Source.combine`: take the max bar count and promote the
supplemental flag (`if not self._is_supplemental: self._is_supplemental
= other.is_supplemental`). The differing-link warning is log-only. -/
def Source.combine (s other : Source) : Source :=
  { s with
    barCount := maxOpt s.barCount other.barCount,
    isSupplemental := s.isSupplemental || other.isSupplemental }

/-- A raw JSON dict for a source: optional fields model key presence
(`supplemental` defaults to `False` via `kwargs.get`). -/
structure RawSource where
  name? : Option String
  link? : Option String
  barCount? : Option Int
  supplemental : Bool
deriving DecidableEq, Repr

/-- Embeds `Source.__init__`: require `name` and `link`, reject non-positive
bar counts. -/
def Source.ofRaw (r : RawSource) : Except String Source :=
  match r.name? with
  | none => .error "key \"name\" not found"
  | some name =>
    match r.link? with
    | none => .error "key \"link\" not found"
    | some link =>
      match r.barCount? with
      | some b =>
        if b ≤ 0 then .error "bar count must be positive"
        else .ok ⟨name, link, some b, r.supplemental⟩
      | none => .ok ⟨name, link, none, r.supplemental⟩

/-- Python exception values that can escape piece construction,
distinguished by exception class: `Piece.__init__`'s own checks raise
`ValueError` (which the definition-file readers catch), while the
source re-raise block crashes with `IndexError` (which they do not). -/
inductive PyErr where
  | valueError (msg : String)
  | indexError (msg : String)
deriving DecidableEq, Repr

/-- The source-construction loop of `Piece.__init__`.  The
`except ValueError` block intends to re-raise with the prefix
`source i: `, but it executes
`ex.args = ('source i: ' + ex.args[0],) + ex.args[1]` — `ex.args[1]`,
not `ex.args[1:]` — and `ex.args` of the caught `ValueError` is a
1-tuple, so the subscript itself raises
`IndexError('tuple index out of range')` before the `raise` statement
is reached.  An invalid source therefore aborts construction with that
`IndexError`, and the index-qualified message is never produced. -/
def initSources (i : Nat) : List RawSource → Except PyErr (List Source)
  | [] => .ok []
  | r :: t =>
    match Source.ofRaw r with
    | .error _ => .error (.indexError "tuple index out of range")
    | .ok s =>
      match initSources (i + 1) t with
      | .error e => .error e
      | .ok ss => .ok (s :: ss)

/-- The `Piece` class.  `sources` and `supplementalSources` are the
ordered name-keyed maps `_sources` and `_supplemental_sources`. -/
structure Piece where
  name : String
  link : Option String
  initialBarCount : Option Int
  sources : List (String × Source)
  supplementalSources : List (String × Source)
  barCount : Option Int
  onlySupplemental : Bool
deriving DecidableEq, Repr

/-- One iteration of the loop in `Piece._add_sources`: combine with an
existing primary source (migrating it if it became supplemental),
combine with an existing supplemental source, or insert fresh. -/
def addOneSource (p : Piece) (s : Source) : Piece :=
  match alookup s.name p.sources with
  | some existing =>
    let combined := existing.combine s
    if combined.isSupplemental then
      { p with
        supplementalSources := ainsert s.name combined p.supplementalSources,
        sources := aerase s.name p.sources }
    else
      { p with sources := ainsert s.name combined p.sources }
  | none =>
    match alookup s.name p.supplementalSources with
    | some existing =>
      { p with
        supplementalSources := ainsert s.name (existing.combine s) p.supplementalSources }
    | none =>
      if s.isSupplemental then
        { p with supplementalSources := ainsert s.name s p.supplementalSources }
      else
        { p with sources := ainsert s.name s p.sources }

/-- Embeds `Piece._add_sources`: add all sources, then recompute
`_only_supplemental` and re-derive `_bar_count` from the initial bar
count and the non-supplemental sources. -/
def addSources (p : Piece) (ss : List Source) : Piece :=
  let p1 := ss.foldl addOneSource p
  { p1 with
    onlySupplemental := p1.sources.isEmpty && !p1.supplementalSources.isEmpty,
    barCount := p1.sources.foldl (fun a x => maxOpt a x.2.barCount) p1.initialBarCount }

/-- A raw JSON dict for a piece: optional fields model key presence. -/
structure RawPiece where
  title? : Option String
  link? : Option String
  barCount? : Option Int
  sources? : Option (List RawSource)
deriving DecidableEq, Repr

/-- Embeds `Piece.__init__`: require `title` and `sources` (missing keys
raise `ValueError`), build the sources (an invalid source aborts with
`IndexError`, see `initSources`), then `_add_sources`. -/
def Piece.ofRaw (r : RawPiece) : Except PyErr Piece :=
  match r.title? with
  | none => .error (.valueError "key \"title\" not found")
  | some title =>
    match r.sources? with
    | none => .error (.valueError "key \"sources\" not found")
    | some rss =>
      match initSources 0 rss with
      | .error e => .error e
      | .ok ss => .ok (addSources
          { name := title, link := r.link?, initialBarCount := r.barCount?,
            sources := [], supplementalSources := [],
            barCount := none, onlySupplemental := false } ss)

/-- Embeds `Piece.final_bar_count`: the derived bar count, or the template's
`defaultBarCount` when no source or override supplied one. -/
def Piece.finalBarCount (p : Piece) (defaultBarCount : Int) : Int :=
  match p.barCount with
  | none => defaultBarCount
  | some b => b

/-- Embeds `Piece.combine`: adopt the other's link/initial bar count when
missing (mismatches are log-only warnings), then `_add_sources` with the
other's PRIMARY sources (`other.sources` is the `sources` property,
which returns only `_sources.values()`). -/
def Piece.combine (p other : Piece) : Piece :=
  let link := match p.link with
    | none => other.link
    | some l => some l
  let ibc := match p.initialBarCount with
    | none => other.initialBarCount
    | some b => some b
  addSources { p with link := link, initialBarCount := ibc }
    (other.sources.map Prod.snd)

/-- The structural invariant of a `Piece`'s two source maps: keys are
unique, each `Source` is stored under its own name, primary sources are
non-supplemental, and the two key sets are disjoint. -/
def MapsWF (p : Piece) : Prop :=
  (akeys p.sources).Nodup ∧ (akeys p.supplementalSources).Nodup ∧
  (∀ x ∈ p.sources, x.2.name = x.1 ∧ x.2.isSupplemental = false) ∧
  (∀ x ∈ p.supplementalSources, x.2.name = x.1) ∧
  (∀ k ∈ akeys p.sources, k ∉ akeys p.supplementalSources)

/-!
## Piece.export_master_sheet column loop (src/_piece.py)

The loop over columns `1 .. notes_col - 1` of a master sheet.  Each
column is embedded as a triple `(row0, email, data)`: `row0` is
`values[0][col]` (non-empty exactly when a new source starts there),
`email` is `values[1][col]`, and `data : D` abstracts the per-column
record assembled from the header/bar/comment rows (the loop builds it
identically for every column and never inspects it).  The hyperlink
parser `_parse_hyperlink` is an abstract parameter
`parse : String → Option (link × name)`; `none` models the
`(None, None)` failure, which makes the whole export return an error
(embedded as `none`).  A column with an empty `row0` before any source
column raises a `KeyError` in Python (`curr_source['summary']` on the
empty dict), also embedded as `none`.
-/

/-- A source being accumulated by `export_master_sheet`: the
`volunteers` map and the current `summary` slot `(email, data)`. -/
structure MSource (D : Type) where
  name : String
  link : String
  volunteers : List (String × D)
  summary : Option (String × D)
deriving DecidableEq, Repr

/-- A finished source after the `fix all summaries` pass. -/
structure MSourceOut (D : Type) where
  name : String
  link : String
  volunteers : List (String × D)
  summary : D
deriving DecidableEq, Repr

/-- The per-column summary-slot update: always overwrite the summary,
pushing the existing occupant (if any) into `volunteers` under its
email. -/
def pushColumn {D : Type} (c : MSource D) (email : String) (data : D) : MSource D :=
  match c.summary with
  | none => { c with summary := some (email, data) }
  | some pe => { c with
      volunteers := ainsert pe.1 pe.2 c.volunteers,
      summary := some (email, data) }

/-- The column loop of `export_master_sheet`: `done` holds the sources
already in the `sources` list (Python appends `curr_source` on
creation and keeps mutating it; here the current source is carried
separately and appended on finish). -/
def exportColsAux {D : Type} (parse : String → Option (String × String)) :
    List (MSource D) → Option (MSource D) → List (String × String × D) →
      Option (List (MSource D))
  | done, cur, [] => some (done ++ cur.toList)
  | done, cur, (r0, email, data) :: rest =>
    if r0 = "" then
      match cur with
      | none => none
      | some c => exportColsAux parse done (some (pushColumn c email data)) rest
    else
      match parse r0 with
      | none => none
      | some ln => exportColsAux parse (done ++ cur.toList)
          (some (pushColumn ⟨ln.2, ln.1, [], none⟩ email data)) rest

/-- The `fix all summaries` pass: unwrap `(email, data)` to `data`
(a still-empty summary would be a Python `TypeError`; embedded as
`none`, though it is unreachable from the loop). -/
def fixSummary {D : Type} (s : MSource D) : Option (MSourceOut D) :=
  match s.summary with
  | none => none
  | some ed => some ⟨s.name, s.link, s.volunteers, ed.2⟩

/-- The source-extraction part of `Piece.export_master_sheet`, over the
abstracted column list. -/
def exportMasterCols {D : Type} (parse : String → Option (String × String))
    (cols : List (String × String × D)) : Option (List (MSourceOut D)) :=
  (exportColsAux parse [] none cols).bind (List.mapM fixSummary)

/-!
## read_template validation (src/_input_files.py)

The validation phase of `read_template`, operating on the merged
template values.  Raw `publicAccess` values are embedded as
`Option String` (`none` is JSON `null`); raw boolean settings as
`Option Bool` (`none` models a non-boolean raw value, rejected by
`val not in (True, False)`).  `warning0` carries the warning flag
accumulated by the earlier merge phase (unknown keys, bad `validation`
entries).  The reset defaults mirror the packaged
`template_definitions.json` (also recorded in the `FILES` table of
`src/_read_write.py`): `publicAccess` is `null`, `shareWithVolunteer`
and `resize` are `true`.
-/

/-- The options for the `publicAccess` field. -/
def PUBLIC_ACCESS_OPTIONS : List (Option String) := [none, some "view", some "edit"]

/-- The merged template values that the validation phase inspects. -/
structure TemplateValues where
  masterPublicAccess : Option String
  volunteerPublicAccess : Option String
  volunteerTitle : String
  shareWithVolunteer : Option Bool
  resize : Option Bool
  defaultBarCount : Int
  commentsRowHeight : Int
deriving DecidableEq, Repr

/-- The `volunteerSpreadsheet.title` placeholder. -/
def emailPlaceholder : String := "\x7bemail\x7d"

/-- Occurrence count of a pattern in a character list (one count per
position at which the pattern starts).  For the placeholder pattern,
which cannot overlap itself, this equals Python's non-overlapping
`str.count`. -/
def countOcc (pat : List Char) : List Char → Nat
  | [] => 0
  | c :: t => (if pat.isPrefixOf (c :: t) then 1 else 0) + countOcc pat t

/-- Python `values['volunteerSpreadsheet']['title'].count('...')` for
the `email` placeholder. -/
def countEmailPlaceholders (s : String) : Nat :=
  countOcc emailPlaceholder.toList s.toList

/-- The validate-values tail of `read_template`: an invalid
`publicAccess` or non-boolean setting only sets `warning` and resets
the value to its default; the title placeholder, `defaultBarCount` and
`commentsRowHeight` checks set `invalid`.  The read fails iff
`invalid`, or `strict` and any warning. -/
def readTemplateValidate (strict warning0 : Bool) (v : TemplateValues) :
    Option TemplateValues :=
  let warning := warning0
    || decide (v.masterPublicAccess ∉ PUBLIC_ACCESS_OPTIONS)
    || decide (v.volunteerPublicAccess ∉ PUBLIC_ACCESS_OPTIONS)
    || v.shareWithVolunteer.isNone
    || v.resize.isNone
  let invalid := decide (countEmailPlaceholders v.volunteerTitle > 1)
    || decide (v.defaultBarCount ≤ 0)
    || decide (v.commentsRowHeight < 21)
  if invalid then none
  else if strict && warning then none
  else some
    { v with
      masterPublicAccess :=
        if v.masterPublicAccess ∈ PUBLIC_ACCESS_OPTIONS then v.masterPublicAccess
        else none,
      volunteerPublicAccess :=
        if v.volunteerPublicAccess ∈ PUBLIC_ACCESS_OPTIONS then v.volunteerPublicAccess
        else none,
      shareWithVolunteer := some (v.shareWithVolunteer.getD true),
      resize := some (v.resize.getD true) }

/-!
## PieceData.add_volunteer notes aggregation (src/_piece_data.py)

The notes section of `PieceData.add_volunteer` (the only part of the
method that touches `self._notes`; the earlier link/sources sections
only log, write into `SourceData`, or return early, leaving `_notes`
untouched).  The aggregated notes structure is
`make_default(is_notes=True)`: a `FixedDoc` whose values are per-email
dicts.  A write to an unknown bar number or field key is a Python
`KeyError`, embedded as `none`.
-/

/-- Embeds `self._notes[key][email] = val` (and the bars variant): update the
per-email dict under an existing key; `none` models the `KeyError` on
a missing key. -/
def setEntry (k email v : String) (m : List (String × List (String × String))) :
    Option (List (String × List (String × String))) :=
  match alookup k m with
  | none => none
  | some inner => some (ainsert k (ainsert email v inner) m)

/-- The notes section of `PieceData.add_volunteer`: walk the
volunteer's `notes['bars']` then the remaining note fields, skipping
empty strings (and the `bars` key in the field loop), writing each
non-empty value under the volunteer's email. -/
def addVolunteerNotes (email : String)
    (nbars nfields : List (String × String))
    (st : FixedDoc (List (String × String))) :
    Option (FixedDoc (List (String × String))) := do
  let bars ← nbars.foldlM (fun acc kv =>
    if kv.2 = "" then pure acc else setEntry kv.1 email kv.2 acc) st.bars
  let fields ← nfields.foldlM (fun acc kv =>
    if kv.1 = "bars" then pure acc
    else if kv.2 = "" then pure acc
    else setEntry kv.1 email kv.2 acc) st.fields
  pure { fields := fields, bars := bars }

/-- A sequence of `add_volunteer` calls (each volunteer's email, raw
note bars and raw note fields), folded over the notes state. -/
def runAddVolunteerNotes
    (vs : List (String × List (String × String) × List (String × String)))
    (st0 : FixedDoc (List (String × String))) :
    Option (FixedDoc (List (String × String))) :=
  vs.foldlM (fun st v => addVolunteerNotes v.1 v.2.1 v.2.2 st) st0

/-- Every per-email entry in every field dict and every bar dict is
non-empty. -/
def notesClean (st : FixedDoc (List (String × String))) : Prop :=
  (∀ p ∈ st.fields, ∀ q ∈ p.2, q.2 ≠ "") ∧
  (∀ p ∈ st.bars, ∀ q ∈ p.2, q.2 ≠ "")

theorem akeys_nil {V : Type} : akeys ([] : List (String × V)) = [] := rfl

theorem akeys_cons {V : Type} (p : String × V) (l : List (String × V)) :
    akeys (p :: l) = p.1 :: akeys l := rfl

theorem alookup_isSome_iff {V : Type} (k : String) (l : List (String × V)) :
    (alookup k l).isSome ↔ k ∈ akeys l := by
  induction l with
  | nil => simp [alookup, akeys]
  | cons hd t ih =>
    obtain ⟨k', v'⟩ := hd
    by_cases hk : k' = k
    · simp [alookup, hk, akeys_cons]
    · rw [akeys_cons, List.mem_cons]
      simp only [alookup, if_neg hk]
      rw [ih]
      constructor
      · exact fun h => Or.inr h
      · rintro (h | h)
        · exact absurd h.symm hk
        · exact h

theorem alookup_eq_none_iff {V : Type} (k : String) (l : List (String × V)) :
    alookup k l = none ↔ k ∉ akeys l := by
  rw [← alookup_isSome_iff]
  cases alookup k l <;> simp

theorem akeys_ainsert_of_mem {V : Type} {k : String} (v : V) {l : List (String × V)}
    (h : k ∈ akeys l) : akeys (ainsert k v l) = akeys l := by
  induction l with
  | nil => simp [akeys] at h
  | cons hd t ih =>
    obtain ⟨k', v'⟩ := hd
    by_cases hk : k' = k
    · simp [ainsert, hk, akeys_cons]
    · rw [akeys_cons, List.mem_cons] at h
      rcases h with h | h
      · exact absurd h.symm hk
      · simp only [ainsert, if_neg hk, akeys_cons, ih h]

theorem akeys_ainsert_of_not_mem {V : Type} {k : String} (v : V) {l : List (String × V)}
    (h : k ∉ akeys l) : akeys (ainsert k v l) = akeys l ++ [k] := by
  induction l with
  | nil => simp [ainsert, akeys]
  | cons hd t ih =>
    obtain ⟨k', v'⟩ := hd
    rw [akeys_cons, List.mem_cons] at h
    push_neg at h
    have hk : k' ≠ k := fun he => h.1 he.symm
    simp only [ainsert, if_neg hk, akeys_cons, ih h.2, List.cons_append]

theorem ainsert_ne_nil {V : Type} (k : String) (v : V) (l : List (String × V)) :
    ainsert k v l ≠ [] := by
  cases l with
  | nil => simp [ainsert]
  | cons hd t =>
    obtain ⟨k', v'⟩ := hd
    simp only [ainsert]
    split <;> simp

theorem mem_akeys_ainsert_self {V : Type} (k : String) (v : V) (l : List (String × V)) :
    k ∈ akeys (ainsert k v l) := by
  induction l with
  | nil => simp [ainsert, akeys]
  | cons hd t ih =>
    obtain ⟨k', v'⟩ := hd
    by_cases hk : k' = k
    · simp [ainsert, hk, akeys_cons]
    · simp only [ainsert, if_neg hk, akeys_cons, List.mem_cons]
      exact Or.inr ih

theorem mem_of_mem_ainsert {V : Type} {k : String} {v : V} {l : List (String × V)}
    {p : String × V} (h : p ∈ ainsert k v l) : p = (k, v) ∨ p ∈ l := by
  induction l with
  | nil => simpa [ainsert] using h
  | cons hd t ih =>
    obtain ⟨k', v'⟩ := hd
    simp only [ainsert] at h
    by_cases hk : k' = k
    · rw [if_pos hk] at h
      rcases List.mem_cons.mp h with h1 | h1
      · subst hk; left; exact h1
      · right; exact List.mem_cons_of_mem _ h1
    · rw [if_neg hk] at h
      rcases List.mem_cons.mp h with h1 | h1
      · right; rw [h1]; exact List.mem_cons_self _ _
      · rcases ih h1 with h2 | h2
        · left; exact h2
        · right; exact List.mem_cons_of_mem _ h2

theorem ainsert_self {V : Type} {k : String} {v : V} {l : List (String × V)}
    (h : alookup k l = some v) : ainsert k v l = l := by
  induction l with
  | nil => simp [alookup] at h
  | cons hd t ih =>
    obtain ⟨k', v'⟩ := hd
    by_cases hk : k' = k
    · simp only [alookup, if_pos hk, Option.some.injEq] at h
      simp [ainsert, hk, h]
    · simp only [alookup, if_neg hk] at h
      simp [ainsert, hk, ih h]

theorem mem_akeys_of_mem {V : Type} {p : String × V} {l : List (String × V)}
    (h : p ∈ l) : p.1 ∈ akeys l :=
  List.mem_map_of_mem Prod.fst h

theorem alookup_of_nodup {V : Type} {k : String} {v : V} {l : List (String × V)}
    (hnd : (akeys l).Nodup) (h : (k, v) ∈ l) : alookup k l = some v := by
  induction l with
  | nil => simp at h
  | cons hd t ih =>
    obtain ⟨k', v'⟩ := hd
    rw [akeys_cons, List.nodup_cons] at hnd
    rcases List.mem_cons.mp h with h1 | h1
    · cases h1
      simp [alookup]
    · have hk : k' ≠ k := by
        intro he
        subst he
        exact hnd.1 (mem_akeys_of_mem (p := (k', v)) h1)
      simp only [alookup, if_neg hk]
      exact ih hnd.2 h1

theorem not_mem_akeys_aerase {V : Type} (k : String) (l : List (String × V)) :
    k ∉ akeys (aerase k l) := by
  induction l with
  | nil => simp [aerase, akeys]
  | cons hd t ih =>
    obtain ⟨k', v'⟩ := hd
    by_cases hk : k' = k
    · simpa [aerase, hk] using ih
    · simp only [aerase, if_neg hk, akeys_cons, List.mem_cons]
      rintro (h | h)
      · exact hk h.symm
      · exact ih h

theorem mem_akeys_aerase {V : Type} {k k' : String} {l : List (String × V)}
    (h : k' ∈ akeys (aerase k l)) : k' ∈ akeys l := by
  induction l with
  | nil => simpa [aerase] using h
  | cons hd t ih =>
    obtain ⟨k₀, v₀⟩ := hd
    by_cases hk : k₀ = k
    · rw [aerase, if_pos hk] at h
      exact List.mem_cons_of_mem _ (ih h)
    · rw [aerase, if_neg hk] at h
      rw [akeys_cons, List.mem_cons] at h ⊢
      rcases h with h | h
      · exact Or.inl h
      · exact Or.inr (ih h)

theorem nodup_akeys_aerase {V : Type} (k : String) {l : List (String × V)}
    (hnd : (akeys l).Nodup) : (akeys (aerase k l)).Nodup := by
  induction l with
  | nil => simp [aerase, akeys]
  | cons hd t ih =>
    obtain ⟨k₀, v₀⟩ := hd
    rw [akeys_cons, List.nodup_cons] at hnd
    by_cases hk : k₀ = k
    · rw [aerase, if_pos hk]
      exact ih hnd.2
    · rw [aerase, if_neg hk, akeys_cons, List.nodup_cons]
      exact ⟨fun h => hnd.1 (mem_akeys_aerase h), ih hnd.2⟩

theorem nodup_akeys_ainsert {V : Type} (k : String) (v : V) {l : List (String × V)}
    (hnd : (akeys l).Nodup) : (akeys (ainsert k v l)).Nodup := by
  by_cases h : k ∈ akeys l
  · rw [akeys_ainsert_of_mem v h]; exact hnd
  · rw [akeys_ainsert_of_not_mem v h]
    simpa [List.nodup_append] using ⟨hnd, fun hx => h hx⟩

theorem alookup_ainsert_self {V : Type} (k : String) (v : V) (l : List (String × V)) :
    alookup k (ainsert k v l) = some v := by
  induction l with
  | nil => simp [ainsert, alookup]
  | cons hd t ih =>
    obtain ⟨k', v'⟩ := hd
    by_cases hk : k' = k
    · simp [ainsert, hk, alookup]
    · simp only [ainsert, if_neg hk, alookup, if_neg hk]
      exact ih

theorem alookup_ainsert_ne {V : Type} {k k' : String} (v : V) (l : List (String × V))
    (h : k ≠ k') : alookup k' (ainsert k v l) = alookup k' l := by
  induction l with
  | nil => simp [ainsert, alookup, h]
  | cons hd t ih =>
    obtain ⟨k₀, v₀⟩ := hd
    by_cases hk : k₀ = k
    · subst hk
      simp [ainsert, alookup, h]
    · simp only [ainsert, if_neg hk, alookup]
      split
      · rfl
      · exact ih

theorem mem_akeys_ainsert_cases {V : Type} {k k' : String} {v : V} {l : List (String × V)}
    (h : k' ∈ akeys (ainsert k v l)) : k' ∈ akeys l ∨ k' = k := by
  by_cases hm : k ∈ akeys l
  · rw [akeys_ainsert_of_mem v hm] at h
    exact Or.inl h
  · rw [akeys_ainsert_of_not_mem v hm] at h
    rcases List.mem_append.mp h with h1 | h1
    · exact Or.inl h1
    · exact Or.inr (List.mem_singleton.mp h1)

theorem procBars_keys {V : Type} (l : List (String × V)) :
    ∀ fb mb eb, akeys (procBars fb mb eb l).1 = akeys fb := by
  induction l with
  | nil => intro fb mb eb; rfl
  | cons hd t ih =>
    intro fb mb eb
    obtain ⟨k, v⟩ := hd
    simp only [procBars]
    by_cases hs : (alookup k fb).isSome
    · rw [if_pos hs, ih]
      exact akeys_ainsert_of_mem v ((alookup_isSome_iff k fb).mp hs)
    · rw [if_neg hs, ih]

theorem procBars_clean {V : Type} (l : List (String × V)) :
    ∀ fb mb eb, (∀ k ∈ akeys l, k ∈ akeys fb) → (∀ x ∈ mb, x ∈ akeys l) →
      (procBars fb mb eb l).2.1 = [] ∧ (procBars fb mb eb l).2.2 = eb := by
  induction l with
  | nil =>
    intro fb mb eb _ hmb
    have : mb = [] := List.eq_nil_iff_forall_not_mem.mpr (fun a ha => by
      have := hmb a ha
      simp [akeys] at this)
    simp [procBars, this]
  | cons hd t ih =>
    intro fb mb eb hmem hmb
    obtain ⟨k, v⟩ := hd
    have hk : k ∈ akeys fb := hmem k (by simp [akeys_cons])
    simp only [procBars, if_pos ((alookup_isSome_iff k fb).mpr hk)]
    apply ih
    · intro k' hk'
      rw [akeys_ainsert_of_mem v hk]
      exact hmem k' (by rw [akeys_cons]; exact List.mem_cons_of_mem _ hk')
    · intro x hx
      rw [List.mem_filter] at hx
      have h1 := hmb x hx.1
      have h2 : x ≠ k := by simpa using hx.2
      rw [akeys_cons, List.mem_cons] at h1
      exact h1.resolve_left h2

theorem procBars_extra_mono {V : Type} (l : List (String × V)) :
    ∀ fb mb eb x, x ∈ eb → x ∈ (procBars fb mb eb l).2.2 := by
  induction l with
  | nil => intro fb mb eb x hx; exact hx
  | cons hd t ih =>
    intro fb mb eb x hx
    obtain ⟨k, v⟩ := hd
    simp only [procBars]
    by_cases hs : (alookup k fb).isSome
    · rw [if_pos hs]; exact ih _ _ _ _ hx
    · rw [if_neg hs]
      exact ih _ _ _ _ (List.mem_append.mpr (Or.inl hx))

theorem procBars_extra_of_not_found {V : Type} (l : List (String × V)) :
    ∀ fb mb eb x, x ∈ akeys l → x ∉ akeys fb → x ∈ (procBars fb mb eb l).2.2 := by
  induction l with
  | nil => intro fb mb eb x hx _; simp [akeys] at hx
  | cons hd t ih =>
    intro fb mb eb x hx hnf
    obtain ⟨k, v⟩ := hd
    rw [akeys_cons, List.mem_cons] at hx
    simp only [procBars]
    by_cases hs : (alookup k fb).isSome
    · rw [if_pos hs]
      rcases hx with hx | hx
      · exfalso
        exact hnf (hx ▸ (alookup_isSome_iff k fb).mp hs)
      · apply ih _ _ _ _ hx
        intro hc
        rcases mem_akeys_ainsert_cases hc with hc | hc
        · exact hnf hc
        · exact hnf (hc ▸ (alookup_isSome_iff k fb).mp hs)
    · rw [if_neg hs]
      rcases hx with hx | hx
      · exact procBars_extra_mono t _ _ _ _
          (List.mem_append.mpr (Or.inr (by rw [hx]; exact List.mem_singleton_self _)))
      · exact ih _ _ _ _ hx hnf

theorem procFields_keys {V : Type} (l : List (String × V)) :
    ∀ ff mf uf, akeys (procFields ff mf uf l).1 = akeys ff := by
  induction l with
  | nil => intro ff mf uf; rfl
  | cons hd t ih =>
    intro ff mf uf
    obtain ⟨k, v⟩ := hd
    simp only [procFields]
    by_cases hsk : k = "name" ∨ k = "link" ∨ k = "bars"
    · rw [if_pos hsk, ih]
    · rw [if_neg hsk]
      by_cases hs : (alookup k ff).isSome
      · rw [if_pos hs, ih]
        exact akeys_ainsert_of_mem v ((alookup_isSome_iff k ff).mp hs)
      · rw [if_neg hs, ih]

theorem procFields_clean {V : Type} (l : List (String × V)) :
    ∀ ff mf uf,
      (∀ k ∈ akeys l, k ∈ akeys ff ∧ ¬(k = "name" ∨ k = "link" ∨ k = "bars")) →
      (∀ x ∈ mf, x ∈ akeys l) →
      (procFields ff mf uf l).2.1 = [] ∧ (procFields ff mf uf l).2.2 = uf := by
  induction l with
  | nil =>
    intro ff mf uf _ hmf
    have : mf = [] := List.eq_nil_iff_forall_not_mem.mpr (fun a ha => by
      have := hmf a ha
      simp [akeys] at this)
    simp [procFields, this]
  | cons hd t ih =>
    intro ff mf uf hmem hmf
    obtain ⟨k, v⟩ := hd
    have hk := hmem k (by simp [akeys_cons])
    simp only [procFields, if_neg hk.2,
      if_pos ((alookup_isSome_iff k ff).mpr hk.1)]
    apply ih
    · intro k' hk'
      have h1 := hmem k' (by rw [akeys_cons]; exact List.mem_cons_of_mem _ hk')
      refine ⟨?_, h1.2⟩
      rw [akeys_ainsert_of_mem v hk.1]
      exact h1.1
    · intro x hx
      rw [List.mem_filter] at hx
      have h1 := hmf x hx.1
      have h2 : x ≠ k := by simpa using hx.2
      rw [akeys_cons, List.mem_cons] at h1
      exact h1.resolve_left h2

theorem mem_foldl_ainsert {V : Type} (dflt : V) (hs : List String) :
    ∀ (a : List (String × V)) (k : String),
      k ∈ akeys (hs.foldl (fun a k => ainsert k dflt a) a) → k ∈ akeys a ∨ k ∈ hs := by
  induction hs with
  | nil => intro a k h; exact Or.inl h
  | cons hd t ih =>
    intro a k h
    rcases ih _ _ h with h1 | h1
    · rcases mem_akeys_ainsert_cases h1 with h2 | h2
      · exact Or.inl h2
      · exact Or.inr (by rw [h2]; exact List.mem_cons_self _ _)
    · exact Or.inr (List.mem_cons_of_mem _ h1)

theorem makeDefault_fields_keys {V : Type} (headers : List String) (barCount : Nat)
    (isNotes : Bool) (dflt : V) :
    ∀ k ∈ akeys (makeDefault headers barCount isNotes dflt).fields,
      (k ∈ headers ∨ k = "comments") ∧ k ≠ "bars" := by
  intro k hk
  simp only [makeDefault] at hk
  have hb : k ≠ "bars" := by
    intro he
    exact not_mem_akeys_aerase "bars" _ (he ▸ hk)
  refine ⟨?_, hb⟩
  have hk1 := mem_akeys_aerase hk
  by_cases hn : isNotes
  · rw [if_pos hn] at hk1
    rcases mem_foldl_ainsert dflt headers [] k hk1 with h | h
    · simp [akeys] at h
    · exact Or.inl h
  · rw [if_neg hn] at hk1
    rcases mem_akeys_ainsert_cases hk1 with h | h
    · rcases mem_foldl_ainsert dflt headers [] k h with h1 | h1
      · simp [akeys] at h1
      · exact Or.inl h1
    · exact Or.inr h

theorem makeDefault_bars_keys {V : Type} (headers : List String) (barCount : Nat)
    (isNotes : Bool) (dflt : V) :
    akeys (makeDefault headers barCount isNotes dflt).bars
      = (List.range barCount).map (fun i => toString (i + 1)) := by
  simp [makeDefault, akeys, List.map_map]

/-- C3 — Bar contiguity invariant: `make_default` produces a `bars`
mapping whose key set is exactly the strings `"1"` through `"N"`
(contiguous, no gaps), `with_defaults` preserves that key set in its
output, and every raw bar number outside that set is appended to the
extra-bars diagnostic (and never written into the output). -/
theorem c3_bar_contiguity {V : Type} (headers : List String) (N : Nat) (isNotes : Bool)
    (dflt : V) (excludeComments : Bool) (raw : RawDoc V) :
    akeys (makeDefault headers N isNotes dflt).bars
      = (List.range N).map (fun i => toString (i + 1)) ∧
    akeys (withDefaults headers N isNotes dflt excludeComments raw).2.1.bars
      = (List.range N).map (fun i => toString (i + 1)) ∧
    ∀ k ∈ akeys (raw.bars?.getD []),
      k ∉ (List.range N).map (fun i => toString (i + 1)) →
      k ∈ (withDefaults headers N isNotes dflt excludeComments raw).2.2.extraBars := by
  refine ⟨makeDefault_bars_keys headers N isNotes dflt, ?_⟩
  cases hb : raw.bars? with
  | none =>
    constructor
    · simp only [withDefaults, hb]
      exact makeDefault_bars_keys headers N isNotes dflt
    · intro k hk
      simp [hb, akeys] at hk
  | some rbars =>
    constructor
    · simp only [withDefaults, hb]
      rw [procBars_keys]
      exact makeDefault_bars_keys headers N isNotes dflt
    · intro k hk hnot
      simp only [withDefaults, hb]
      simp only [hb, Option.getD_some] at hk
      exact procBars_extra_of_not_found rbars _ _ _ k hk
        (fun hc => hnot ((makeDefault_bars_keys headers N isNotes dflt) ▸ hc))

/-- Witness for C3 at a concrete input: with two bars, the raw bar
number `"5"` is reported as an extra bar and the output keys stay
`["1", "2"]`. -/
theorem c3_bar_contiguity_witness :
    ("5" : String) ∈ (withDefaults ["title"] 2 false "" false
      (⟨[], some [("5", "x")]⟩ : RawDoc String)).2.2.extraBars ∧
    akeys (withDefaults ["title"] 2 false "" false
      (⟨[], some [("5", "x")]⟩ : RawDoc String)).2.1.bars = ["1", "2"] := by
  have h := c3_bar_contiguity ["title"] 2 false "" false
    (⟨[], some [("5", "x")]⟩ : RawDoc String)
  exact ⟨h.2.2 "5" (by decide) (by decide), h.2.1.trans (by decide)⟩

theorem withDefaults_bars_keys {V : Type} (headers : List String) (N : Nat)
    (isNotes : Bool) (dflt : V) (excludeComments : Bool) (raw : RawDoc V) :
    akeys (withDefaults headers N isNotes dflt excludeComments raw).2.1.bars
      = akeys (makeDefault headers N isNotes dflt).bars := by
  cases hb : raw.bars? with
  | none => simp only [withDefaults, hb]
  | some rbars =>
    simp only [withDefaults, hb]
    exact procBars_keys rbars _ _ _

theorem withDefaults_fields_keys {V : Type} (headers : List String) (N : Nat)
    (isNotes : Bool) (dflt : V) (excludeComments : Bool) (raw : RawDoc V) :
    akeys (withDefaults headers N isNotes dflt excludeComments raw).2.1.fields
      = akeys (if excludeComments then aerase "comments" (makeDefault headers N isNotes dflt).fields
          else (makeDefault headers N isNotes dflt).fields) := by
  cases hb : raw.bars? with
  | none =>
    simp only [withDefaults, hb]
    exact procFields_keys raw.fields _ _ _
  | some rbars =>
    simp only [withDefaults, hb]
    exact procFields_keys raw.fields _ _ _

/-- C2 — Reconcile round-trip: reapplying `with_defaults` (with the same
`exclude_comments` and `is_notes` arguments) to the fixed output of a
first application reports no diagnostics: the warning flag is `false`
and the missing-fields, missing-bars, extra-bars and unknown-fields
lists are all empty.  The hypotheses reflect the template loader, which
fixes the `metaDataFields` vocabulary so that no header is named
`"name"` or `"link"` (those keys are reserved in documents). -/
theorem c2_reconcile_round_trip {V : Type} (headers : List String) (N : Nat)
    (isNotes : Bool) (dflt : V) (excludeComments : Bool) (raw : RawDoc V)
    (hname : "name" ∉ headers) (hlink : "link" ∉ headers) :
    (roundTripOut headers N isNotes dflt excludeComments raw).1 = false ∧
    (roundTripOut headers N isNotes dflt excludeComments raw).2.2
      = ⟨[], [], [], []⟩ := by
  have hFbars := withDefaults_bars_keys headers N isNotes dflt excludeComments raw
  have hFfields := withDefaults_fields_keys headers N isNotes dflt excludeComments raw
  have hfieldsProp : ∀ k ∈ akeys (withDefaults headers N isNotes dflt excludeComments raw).2.1.fields,
      k ∈ akeys (if excludeComments then aerase "comments" (makeDefault headers N isNotes dflt).fields
        else (makeDefault headers N isNotes dflt).fields) ∧
      ¬(k = "name" ∨ k = "link" ∨ k = "bars") := by
    intro k hk
    rw [hFfields] at hk
    refine ⟨hk, ?_⟩
    have hk2 : k ∈ akeys (makeDefault headers N isNotes dflt).fields := by
      by_cases he : excludeComments
      · rw [if_pos he] at hk
        exact mem_akeys_aerase hk
      · rw [if_neg he] at hk
        exact hk
    have := makeDefault_fields_keys headers N isNotes dflt k hk2
    rintro (rfl | rfl | rfl)
    · rcases this.1 with h | h
      · exact hname h
      · exact absurd h (by decide)
    · rcases this.1 with h | h
      · exact hlink h
      · exact absurd h (by decide)
    · exact this.2 rfl
  have hbclean := procBars_clean
    (withDefaults headers N isNotes dflt excludeComments raw).2.1.bars
    (makeDefault headers N isNotes dflt).bars
    (akeys (makeDefault headers N isNotes dflt).bars) []
    (fun k hk => hFbars ▸ hk)
    (fun x hx => hFbars.symm ▸ hx)
  have hfclean := procFields_clean
    (withDefaults headers N isNotes dflt excludeComments raw).2.1.fields
    (if excludeComments then aerase "comments" (makeDefault headers N isNotes dflt).fields
      else (makeDefault headers N isNotes dflt).fields)
    (akeys (if excludeComments then aerase "comments" (makeDefault headers N isNotes dflt).fields
      else (makeDefault headers N isNotes dflt).fields)) []
    hfieldsProp
    (fun x hx => hFfields.symm ▸ hx)
  simp only [roundTripOut, withDefaults] at hbclean hfclean ⊢
  rw [hbclean.1, hbclean.2, hfclean.1, hfclean.2]
  simp

/-- Witness for C2 at a concrete input (a raw document with an unknown
field, a missing field, an extra bar and a missing bar). -/
theorem c2_reconcile_round_trip_witness :
    (roundTripOut ["title", "tempo"] 1 false "" false
      (⟨[("tempo", "120"), ("junk", "z")], some [("9", "b")]⟩ : RawDoc String)).1 = false ∧
    (roundTripOut ["title", "tempo"] 1 false "" false
      (⟨[("tempo", "120"), ("junk", "z")], some [("9", "b")]⟩ : RawDoc String)).2.2
      = ⟨[], [], [], []⟩ :=
  c2_reconcile_round_trip ["title", "tempo"] 1 false "" false
    (⟨[("tempo", "120"), ("junk", "z")], some [("9", "b")]⟩ : RawDoc String)
    (by decide) (by decide)

theorem alookup_mem {V : Type} {k : String} {v : V} {l : List (String × V)}
    (h : alookup k l = some v) : (k, v) ∈ l := by
  induction l with
  | nil => simp [alookup] at h
  | cons hd t ih =>
    obtain ⟨k', v'⟩ := hd
    by_cases hk : k' = k
    · simp only [alookup, if_pos hk, Option.some.injEq] at h
      subst hk; subst h
      exact List.mem_cons_self _ _
    · simp only [alookup, if_neg hk] at h
      exact List.mem_cons_of_mem _ (ih h)

theorem mem_of_mem_aerase {V : Type} {k : String} {l : List (String × V)}
    {p : String × V} (h : p ∈ aerase k l) : p ∈ l := by
  induction l with
  | nil => simp [aerase] at h
  | cons hd t ih =>
    obtain ⟨k', v'⟩ := hd
    by_cases hk : k' = k
    · rw [aerase, if_pos hk] at h
      exact List.mem_cons_of_mem _ (ih h)
    · rw [aerase, if_neg hk] at h
      rcases List.mem_cons.mp h with h1 | h1
      · exact h1 ▸ List.mem_cons_self _ _
      · exact List.mem_cons_of_mem _ (ih h1)

theorem maxOpt_self (a : Option Int) : maxOpt a a = a := by
  cases a <;> simp [maxOpt]

theorem maxOpt_none_right (a : Option Int) : maxOpt a none = a := by
  cases a <;> rfl

theorem Source.combine_name (a b : Source) : (a.combine b).name = a.name := rfl

theorem Source.combine_self (s : Source) : s.combine s = s := by
  simp [Source.combine, maxOpt_self]

theorem mapsWF_addOneSource (p : Piece) (s : Source) (h : MapsWF p) :
    MapsWF (addOneSource p s) := by
  obtain ⟨hnd1, hnd2, hsrc, hsupp, hdisj⟩ := h
  unfold addOneSource
  cases h1 : alookup s.name p.sources with
  | some existing =>
    have hmem : (s.name, existing) ∈ p.sources := alookup_mem h1
    simp only []
    by_cases h2 : (existing.combine s).isSupplemental
    · rw [if_pos h2]
      refine ⟨nodup_akeys_aerase _ hnd1, nodup_akeys_ainsert _ _ hnd2, ?_, ?_, ?_⟩
      · intro x hx
        exact hsrc x (mem_of_mem_aerase hx)
      · intro x hx
        rcases mem_of_mem_ainsert hx with h3 | h3
        · rw [h3]
          exact (Source.combine_name existing s).trans (hsrc _ hmem).1
        · exact hsupp x h3
      · intro k hk hc
        have hne : k ≠ s.name := by
          intro he
          exact not_mem_akeys_aerase s.name p.sources (he ▸ hk)
        rcases mem_akeys_ainsert_cases hc with h3 | h3
        · exact hdisj k (mem_akeys_aerase hk) h3
        · exact hne h3
    · rw [if_neg h2]
      have hkeys : akeys (ainsert s.name (existing.combine s) p.sources) = akeys p.sources :=
        akeys_ainsert_of_mem _ ((alookup_isSome_iff _ _).mp (by rw [h1]; rfl))
      refine ⟨?_, hnd2, ?_, hsupp, ?_⟩
      · rw [hkeys]; exact hnd1
      · intro x hx
        rcases mem_of_mem_ainsert hx with h3 | h3
        · rw [h3]
          refine ⟨(Source.combine_name existing s).trans (hsrc _ hmem).1, ?_⟩
          simpa using h2
        · exact hsrc x h3
      · intro k hk
        rw [hkeys] at hk
        exact hdisj k hk
  | none =>
    simp only []
    cases h2 : alookup s.name p.supplementalSources with
    | some existing =>
      have hmem : (s.name, existing) ∈ p.supplementalSources := alookup_mem h2
      have hkeys : akeys (ainsert s.name (existing.combine s) p.supplementalSources)
          = akeys p.supplementalSources :=
        akeys_ainsert_of_mem _ ((alookup_isSome_iff _ _).mp (by rw [h2]; rfl))
      refine ⟨hnd1, ?_, hsrc, ?_, ?_⟩
      · rw [hkeys]; exact hnd2
      · intro x hx
        rcases mem_of_mem_ainsert hx with h3 | h3
        · rw [h3]
          exact (Source.combine_name existing s).trans (hsupp _ hmem)
        · exact hsupp x h3
      · intro k hk
        rw [hkeys]
        exact hdisj k hk
    | none =>
      have hns : s.name ∉ akeys p.sources := (alookup_eq_none_iff _ _).mp h1
      have hnss : s.name ∉ akeys p.supplementalSources := (alookup_eq_none_iff _ _).mp h2
      by_cases h3 : s.isSupplemental
      · rw [if_pos h3]
        refine ⟨hnd1, nodup_akeys_ainsert _ _ hnd2, hsrc, ?_, ?_⟩
        · intro x hx
          rcases mem_of_mem_ainsert hx with h4 | h4
          · rw [h4]
          · exact hsupp x h4
        · intro k hk hc
          rcases mem_akeys_ainsert_cases hc with h4 | h4
          · exact hdisj k hk h4
          · exact hns (h4 ▸ hk)
      · rw [if_neg h3]
        refine ⟨nodup_akeys_ainsert _ _ hnd1, hnd2, ?_, hsupp, ?_⟩
        · intro x hx
          rcases mem_of_mem_ainsert hx with h4 | h4
          · rw [h4]
            exact ⟨rfl, by simpa using h3⟩
          · exact hsrc x h4
        · intro k hk
          rcases mem_akeys_ainsert_cases hk with h4 | h4
          · exact hdisj k h4
          · exact h4 ▸ hnss

theorem mapsWF_foldl (ss : List Source) :
    ∀ p : Piece, MapsWF p → MapsWF (ss.foldl addOneSource p) := by
  induction ss with
  | nil => intro p h; exact h
  | cons s t ih =>
    intro p h
    exact ih _ (mapsWF_addOneSource p s h)

theorem mapsWF_addSources (p : Piece) (ss : List Source) (h : MapsWF p) :
    MapsWF (addSources p ss) :=
  mapsWF_foldl ss p h

theorem ofRaw_shape {r : RawPiece} {p : Piece} (h : Piece.ofRaw r = .ok p) :
    ∃ t rss ss, r.title? = some t ∧ r.sources? = some rss ∧
      initSources 0 rss = .ok ss ∧
      p = addSources ⟨t, r.link?, r.barCount?, [], [], none, false⟩ ss := by
  cases ht : r.title? with
  | none => simp [Piece.ofRaw, ht] at h
  | some t =>
    cases hs : r.sources? with
    | none => simp [Piece.ofRaw, ht, hs] at h
    | some rss =>
      cases hi : initSources 0 rss with
      | error e => simp [Piece.ofRaw, ht, hs, hi] at h
      | ok ss =>
        simp only [Piece.ofRaw, ht, hs, hi, Except.ok.injEq] at h
        exact ⟨t, rss, ss, rfl, rfl, hi, h.symm⟩

theorem mapsWF_ofRaw {r : RawPiece} {p : Piece} (h : Piece.ofRaw r = .ok p) :
    MapsWF p := by
  obtain ⟨t, rss, ss, _, _, _, hp⟩ := ofRaw_shape h
  rw [hp]
  apply mapsWF_addSources
  refine ⟨List.nodup_nil, List.nodup_nil, ?_, ?_, ?_⟩ <;> intro x hx <;> simp [akeys] at hx

theorem mapsWF_combine (p q : Piece) (h : MapsWF p) : MapsWF (p.combine q) :=
  mapsWF_addSources _ _ h

theorem mapsWF_foldl_combine (qs : List Piece) :
    ∀ p : Piece, MapsWF p → MapsWF (qs.foldl Piece.combine p) := by
  induction qs with
  | nil => intro p h; exact h
  | cons q t ih =>
    intro p h
    exact ih _ (mapsWF_combine p q h)

theorem addSources_barCount (p : Piece) (ss : List Source) :
    (addSources p ss).barCount = (addSources p ss).sources.foldl
      (fun a x => maxOpt a x.2.barCount) (addSources p ss).initialBarCount := rfl

/-- C9 — Disjoint source maps: for every piece constructed from raw
JSON and after any sequence of `Piece.combine` operations, no source
name is a key of both the primary sources map and the supplemental
sources map. -/
theorem c9_disjoint_source_maps (r : RawPiece) (p : Piece)
    (h : Piece.ofRaw r = .ok p) (qs : List Piece) (k : String) :
    ¬(k ∈ akeys (qs.foldl Piece.combine p).sources ∧
      k ∈ akeys (qs.foldl Piece.combine p).supplementalSources) := by
  have hwf : MapsWF (qs.foldl Piece.combine p) :=
    mapsWF_foldl_combine qs p (mapsWF_ofRaw h)
  rintro ⟨h1, h2⟩
  exact hwf.2.2.2.2 k h1 h2

theorem addOneSource_fix {p : Piece} {s : Source}
    (h1 : alookup s.name p.sources = some s) (h2 : s.isSupplemental = false) :
    addOneSource p s = p := by
  simp only [addOneSource, h1, Source.combine_self, h2, Bool.false_eq_true, if_false,
    ainsert_self h1]

theorem foldl_addOneSource_fix (vals : List Source) :
    ∀ p : Piece,
      (∀ s ∈ vals, alookup s.name p.sources = some s ∧ s.isSupplemental = false) →
      vals.foldl addOneSource p = p := by
  induction vals with
  | nil => intro p _; rfl
  | cons s t ih =>
    intro p hv
    have hs := hv s (List.mem_cons_self _ _)
    rw [List.foldl_cons, addOneSource_fix hs.1 hs.2]
    exact ih p (fun x hx => hv x (List.mem_cons_of_mem _ hx))

theorem combine_self_eq (p : Piece) :
    p.combine p = addSources p (p.sources.map Prod.snd) := by
  obtain ⟨nm, lk, ibc, srcs, supp, bc, os⟩ := p
  cases lk <;> cases ibc <;> rfl

/-- C5 — Idempotent combination: combining a piece with a piece built
from identical raw JSON (hence equal to it: `Piece.__init__` is
deterministic) leaves the primary source map, the supplemental source
map and `final_bar_count` unchanged — no duplicated sources, no
bar-count drift. -/
theorem c5_idempotent_combination (r : RawPiece) (p : Piece)
    (h : Piece.ofRaw r = .ok p) (d : Int) :
    (p.combine p).sources = p.sources ∧
    (p.combine p).supplementalSources = p.supplementalSources ∧
    (p.combine p).finalBarCount d = p.finalBarCount d := by
  have hwf := mapsWF_ofRaw h
  obtain ⟨hnd1, hnd2, hsrc, hsupp, hdisj⟩ := hwf
  have hbc : p.barCount = p.sources.foldl
      (fun a x => maxOpt a x.2.barCount) p.initialBarCount := by
    obtain ⟨t, rss, ss, _, _, _, hp⟩ := ofRaw_shape h
    rw [hp]
    exact addSources_barCount _ _
  have hvals : ∀ s ∈ p.sources.map Prod.snd,
      alookup s.name p.sources = some s ∧ s.isSupplemental = false := by
    intro s hs
    rw [List.mem_map] at hs
    obtain ⟨x, hx, rfl⟩ := hs
    have h1 := hsrc x hx
    refine ⟨?_, h1.2⟩
    rw [h1.1]
    exact alookup_of_nodup hnd1 hx
  have hfold := foldl_addOneSource_fix (p.sources.map Prod.snd) p hvals
  rw [combine_self_eq]
  simp only [addSources, hfold]
  refine ⟨trivial, trivial, ?_⟩
  simp only [Piece.finalBarCount, ← hbc]

/-- Witness for C5 at a concrete piece built from raw JSON. -/
theorem c5_idempotent_combination_witness :
    (Piece.combine ⟨"P", none, some 10, [("A", ⟨"A", "l", some 5, false⟩)], [], some 10, false⟩
        ⟨"P", none, some 10, [("A", ⟨"A", "l", some 5, false⟩)], [], some 10, false⟩).sources
      = [("A", ⟨"A", "l", some 5, false⟩)] ∧
    (Piece.combine ⟨"P", none, some 10, [("A", ⟨"A", "l", some 5, false⟩)], [], some 10, false⟩
        ⟨"P", none, some 10, [("A", ⟨"A", "l", some 5, false⟩)], [], some 10, false⟩).supplementalSources
      = [] ∧
    (Piece.combine ⟨"P", none, some 10, [("A", ⟨"A", "l", some 5, false⟩)], [], some 10, false⟩
        ⟨"P", none, some 10, [("A", ⟨"A", "l", some 5, false⟩)], [], some 10, false⟩).finalBarCount 100
      = Piece.finalBarCount ⟨"P", none, some 10, [("A", ⟨"A", "l", some 5, false⟩)], [], some 10, false⟩ 100 :=
  c5_idempotent_combination
    ⟨some "P", none, some 10, some [⟨some "A", some "l", some 5, false⟩]⟩
    ⟨"P", none, some 10, [("A", ⟨"A", "l", some 5, false⟩)], [], some 10, false⟩
    (by rfl) 100

/-- Witness for C9 at a concrete piece and combination sequence. -/
theorem c9_disjoint_source_maps_witness :
    ¬("A" ∈ akeys (([⟨"Q", none, none, [], [("A", ⟨"A", "l", none, true⟩)], none, true⟩] :
        List Piece).foldl Piece.combine
        ⟨"P", none, none, [("A", ⟨"A", "l", none, false⟩)], [], none, false⟩).sources ∧
      "A" ∈ akeys (([⟨"Q", none, none, [], [("A", ⟨"A", "l", none, true⟩)], none, true⟩] :
        List Piece).foldl Piece.combine
        ⟨"P", none, none, [("A", ⟨"A", "l", none, false⟩)], [], none, false⟩).supplementalSources) :=
  c9_disjoint_source_maps
    ⟨some "P", none, none, some [⟨some "A", some "l", none, false⟩]⟩
    ⟨"P", none, none, [("A", ⟨"A", "l", none, false⟩)], [], none, false⟩
    (by rfl)
    [⟨"Q", none, none, [], [("A", ⟨"A", "l", none, true⟩)], none, true⟩]
    "A"

theorem foldl_maxOpt_char (srcs : List (String × Source)) :
    ∀ init : Option Int,
      (srcs.foldl (fun a x => maxOpt a x.2.barCount) init = none ↔
        init.toList ++ srcs.filterMap (fun x => x.2.barCount) = []) ∧
      ∀ m, srcs.foldl (fun a x => maxOpt a x.2.barCount) init = some m →
        m ∈ init.toList ++ srcs.filterMap (fun x => x.2.barCount) ∧
        ∀ x ∈ init.toList ++ srcs.filterMap (fun x => x.2.barCount), x ≤ m := by
  induction srcs with
  | nil =>
    intro init
    cases init with
    | none => simp
    | some a =>
      refine ⟨by simp, ?_⟩
      intro m hm
      simp only [List.foldl_nil, Option.some.injEq] at hm
      subst hm
      simp
  | cons y t ih =>
    intro init
    rw [List.foldl_cons]
    cases hbc : y.2.barCount with
    | none =>
      constructor
      · rw [(show maxOpt init none = init from maxOpt_none_right init)]
        rw [(ih init).1]
        simp [List.filterMap_cons, hbc]
      · intro m hm
        rw [(show maxOpt init none = init from maxOpt_none_right init)] at hm
        have h2 := (ih init).2 m hm
        simp only [List.filterMap_cons, hbc]
        exact h2
    | some b =>
      cases init with
      | none =>
        constructor
        · rw [(show maxOpt none (some b) = some b from rfl)]
          rw [(ih (some b)).1]
          simp [List.filterMap_cons, hbc]
        · intro m hm
          rw [(show maxOpt none (some b) = some b from rfl)] at hm
          have h2 := (ih (some b)).2 m hm
          simp only [List.filterMap_cons, hbc, Option.toList_none, Option.toList_some,
            List.nil_append, List.singleton_append] at h2 ⊢
          exact h2
      | some a =>
        constructor
        · rw [(show maxOpt (some a) (some b) = some (max a b) from rfl)]
          rw [(ih (some (max a b))).1]
          simp [List.filterMap_cons, hbc]
        · intro m hm
          rw [(show maxOpt (some a) (some b) = some (max a b) from rfl)] at hm
          have h2 := (ih (some (max a b))).2 m hm
          simp only [Option.toList_some, List.singleton_append, List.mem_cons] at h2
          simp only [List.filterMap_cons, hbc, Option.toList_some, List.singleton_append,
            List.mem_cons]
          have hmax : max a b ≤ m := h2.2 (max a b) (Or.inl rfl)
          constructor
          · rcases h2.1 with h3 | h3
            · rcases max_choice a b with h4 | h4
              · left; rw [← h4, h3]
              · right; left; rw [← h4, h3]
            · right; right; exact h3
          · intro x hx
            rcases hx with h3 | h3 | h3
            · exact h3 ▸ le_trans (le_max_left a b) hmax
            · exact h3 ▸ le_trans (le_max_right a b) hmax
            · exact h2.2 x (Or.inr h3)

/-- C6 counterexample: a piece with explicit `barCount` override 10 and
one non-supplemental source with bar count 5.  The source has a bar
count, yet `final_bar_count` is 10 (the override wins the max), not the
claimed maximum 5 among the non-supplemental sources. -/
theorem c6_counterexample :
    Piece.ofRaw ⟨some "P", none, some 10, some [⟨some "A", some "l", some 5, false⟩]⟩
      = .ok ⟨"P", none, some 10, [("A", ⟨"A", "l", some 5, false⟩)], [], some 10, false⟩ ∧
    (Piece.sources ⟨"P", none, some 10,
        [("A", ⟨"A", "l", some 5, false⟩)], [], some 10, false⟩).filterMap
      (fun x => x.2.barCount) = [5] ∧
    Piece.finalBarCount
      ⟨"P", none, some 10, [("A", ⟨"A", "l", some 5, false⟩)], [], some 10, false⟩ 100 = 10 ∧
    (10 : Int) ≠ 5 :=
  ⟨rfl, rfl, rfl, by decide⟩

/-- C6 (amended) — `final_bar_count` derivation: after `_add_sources`,
the derived bar count is the maximum over the explicit override (if
any) together with the non-supplemental sources' bar counts; when all
of those are absent, `final_bar_count` falls back to the template's
`defaultBarCount`. -/
theorem c6_amended_final_bar_count (p : Piece) (ss : List Source) (d : Int) :
    (((addSources p ss).initialBarCount.toList ++
        (addSources p ss).sources.filterMap (fun x => x.2.barCount)) = [] →
      (addSources p ss).finalBarCount d = d) ∧
    (((addSources p ss).initialBarCount.toList ++
        (addSources p ss).sources.filterMap (fun x => x.2.barCount)) ≠ [] →
      (addSources p ss).finalBarCount d ∈
        ((addSources p ss).initialBarCount.toList ++
          (addSources p ss).sources.filterMap (fun x => x.2.barCount)) ∧
      ∀ x ∈ ((addSources p ss).initialBarCount.toList ++
          (addSources p ss).sources.filterMap (fun x => x.2.barCount)),
        x ≤ (addSources p ss).finalBarCount d) := by
  have hchar := foldl_maxOpt_char (addSources p ss).sources (addSources p ss).initialBarCount
  rw [← addSources_barCount] at hchar
  cases hbc : (addSources p ss).barCount with
  | none =>
    rw [hbc] at hchar
    have hnil := hchar.1.mp rfl
    constructor
    · intro _
      simp [Piece.finalBarCount, hbc]
    · intro hne
      exact absurd hnil hne
  | some m =>
    rw [hbc] at hchar
    have h2 := hchar.2 m rfl
    constructor
    · intro hnil
      rw [hnil] at h2
      exact absurd h2.1 (List.not_mem_nil m)
    · intro _
      have hf : (addSources p ss).finalBarCount d = m := by
        simp [Piece.finalBarCount, hbc]
      rw [hf]
      exact h2

/-- Witness for the amended C6: override 10 and a source with bar
count 5 give `final_bar_count` 10, which is a member of the candidate
list `[10, 5]`. -/
theorem c6_amended_final_bar_count_witness :
    Piece.finalBarCount
      (addSources ⟨"P", none, some 10, [], [], none, false⟩ [⟨"A", "l", some 5, false⟩]) 100 ∈
    ((addSources ⟨"P", none, some 10, [], [], none, false⟩
        [⟨"A", "l", some 5, false⟩]).initialBarCount.toList ++
      (addSources ⟨"P", none, some 10, [], [], none, false⟩
        [⟨"A", "l", some 5, false⟩]).sources.filterMap (fun x => x.2.barCount)) :=
  ((c6_amended_final_bar_count ⟨"P", none, some 10, [], [], none, false⟩
    [⟨"A", "l", some 5, false⟩] 100).2 (by decide)).1

/-- C4 counterexample: piece P has primary source `"Foo"`; piece Q
(built from raw JSON) holds `"Foo"` marked supplemental, so Q keeps it
in `supplemental_sources`.  `P.combine(Q)` passes only Q's PRIMARY
sources (`other.sources`) to `_add_sources`, so `"Foo"` is NOT removed
from P's primary map, nothing lands in P's `supplemental_sources`, and
`only_supplemental` stays false — contrary to the claim. -/
theorem c4_counterexample :
    Piece.ofRaw ⟨some "P", none, none, some [⟨some "Foo", some "l", none, false⟩]⟩
      = .ok ⟨"P", none, none, [("Foo", ⟨"Foo", "l", none, false⟩)], [], none, false⟩ ∧
    Piece.ofRaw ⟨some "P", none, none, some [⟨some "Foo", some "l", none, true⟩]⟩
      = .ok ⟨"P", none, none, [], [("Foo", ⟨"Foo", "l", none, true⟩)], none, true⟩ ∧
    akeys (Piece.supplementalSources
      ⟨"P", none, none, [], [("Foo", ⟨"Foo", "l", none, true⟩)], none, true⟩) = ["Foo"] ∧
    akeys (Piece.combine
      ⟨"P", none, none, [("Foo", ⟨"Foo", "l", none, false⟩)], [], none, false⟩
      ⟨"P", none, none, [], [("Foo", ⟨"Foo", "l", none, true⟩)], none, true⟩).sources = ["Foo"] ∧
    (Piece.combine
      ⟨"P", none, none, [("Foo", ⟨"Foo", "l", none, false⟩)], [], none, false⟩
      ⟨"P", none, none, [], [("Foo", ⟨"Foo", "l", none, true⟩)], none, true⟩).supplementalSources = [] ∧
    (Piece.combine
      ⟨"P", none, none, [("Foo", ⟨"Foo", "l", none, false⟩)], [], none, false⟩
      ⟨"P", none, none, [], [("Foo", ⟨"Foo", "l", none, true⟩)], none, true⟩).onlySupplemental = false :=
  ⟨rfl, rfl, rfl, rfl, rfl, rfl⟩

/-- C4 (amended) — Supplemental migration happens at `_add_sources`:
when `_add_sources` is given a source marked supplemental whose name is
an existing PRIMARY source, that source is combined, removed from the
primary map and placed into `supplemental_sources`; and if the primary
map is thereby emptied, `only_supplemental` becomes true (the
supplemental map is non-empty).  Migration does NOT happen through
`Piece.combine`, which passes only the other piece's primary sources. -/
theorem c4_amended_supplemental_migration (p : Piece) (s : Source) (foo : String)
    (ex : Source) (h1 : alookup foo p.sources = some ex) (h2 : s.name = foo)
    (h3 : s.isSupplemental = true) :
    (addSources p [s]).sources = aerase foo p.sources ∧
    foo ∈ akeys (addSources p [s]).supplementalSources ∧
    (aerase foo p.sources = [] → (addSources p [s]).onlySupplemental = true) := by
  have hsup : (ex.combine s).isSupplemental = true := by
    simp [Source.combine, h3]
  have hone : addOneSource p s =
      { p with
        supplementalSources := ainsert foo (ex.combine s) p.supplementalSources,
        sources := aerase foo p.sources } := by
    simp only [addOneSource, h2, h1, hsup, if_true]
  have hfold : (addSources p [s]).sources = aerase foo p.sources ∧
      (addSources p [s]).supplementalSources
        = ainsert foo (ex.combine s) p.supplementalSources ∧
      (addSources p [s]).onlySupplemental
        = ((aerase foo p.sources).isEmpty &&
            !(ainsert foo (ex.combine s) p.supplementalSources).isEmpty) := by
    simp only [addSources, List.foldl_cons, List.foldl_nil, hone]
    refine ⟨?_, ?_, ?_⟩ <;> trivial
  refine ⟨hfold.1, ?_, ?_⟩
  · rw [hfold.2.1]
    exact mem_akeys_ainsert_self foo _ _
  · intro hemp
    rw [hfold.2.2, hemp]
    have hne := ainsert_ne_nil foo (ex.combine s) p.supplementalSources
    simp [List.isEmpty_iff, hne]

/-- Witness for the amended C4: a single-primary-source piece given a
supplemental source of the same name migrates it and turns on
`only_supplemental`. -/
theorem c4_amended_supplemental_migration_witness :
    (addSources ⟨"P", none, none, [("Foo", ⟨"Foo", "l", none, false⟩)], [], none, false⟩
      [⟨"Foo", "l", none, true⟩]).sources
      = aerase "Foo" ([("Foo", ⟨"Foo", "l", none, false⟩)] : List (String × Source)) ∧
    "Foo" ∈ akeys (addSources
      ⟨"P", none, none, [("Foo", ⟨"Foo", "l", none, false⟩)], [], none, false⟩
      [⟨"Foo", "l", none, true⟩]).supplementalSources ∧
    (aerase "Foo" ([("Foo", ⟨"Foo", "l", none, false⟩)] : List (String × Source)) = [] →
      (addSources ⟨"P", none, none, [("Foo", ⟨"Foo", "l", none, false⟩)], [], none, false⟩
        [⟨"Foo", "l", none, true⟩]).onlySupplemental = true) :=
  c4_amended_supplemental_migration
    ⟨"P", none, none, [("Foo", ⟨"Foo", "l", none, false⟩)], [], none, false⟩
    ⟨"Foo", "l", none, true⟩ "Foo" ⟨"Foo", "l", none, false⟩
    (by rfl) rfl rfl

/-- C7 — code bug: the claim states the intended behavior (the code
comment says `re-raise the exception with added text`, and every
caller catches `ValueError` expecting the prefixed message), but
`ex.args[1]` on the 1-tuple `args` raises
`IndexError('tuple index out of range')` inside the `except` block
before the `raise` is reached.  At the failing input — a piece whose
source at index 1 is missing its `link` key — construction aborts with
that `IndexError`; the index-qualified `ValueError`
`source 1: key "link" not found` (whose underlying source error the
second conjunct evaluates) is never produced. -/
theorem c7_index_error_code_bug :
    Piece.ofRaw ⟨some "T", none, none,
        some [⟨some "A", some "l", none, false⟩, ⟨some "B", none, none, false⟩]⟩
      = .error (.indexError "tuple index out of range") ∧
    Source.ofRaw ⟨some "B", none, none, false⟩ = .error "key \"link\" not found" :=
  ⟨rfl, rfl⟩

theorem ainsert_of_not_mem {V : Type} {k : String} (v : V) {l : List (String × V)}
    (h : k ∉ akeys l) : ainsert k v l = l ++ [(k, v)] := by
  induction l with
  | nil => rfl
  | cons hd t ih =>
    obtain ⟨k', v'⟩ := hd
    rw [akeys_cons, List.mem_cons] at h
    push_neg at h
    have hk : k' ≠ k := fun he => h.1 he.symm
    simp only [ainsert, if_neg hk, List.cons_append, ih h.2]

theorem akeys_append {V : Type} (l1 l2 : List (String × V)) :
    akeys (l1 ++ l2) = akeys l1 ++ akeys l2 :=
  List.map_append _ _ _

theorem foldl_ainsert_eq_append {D : Type} (l : List (String × D)) :
    ∀ acc : List (String × D), (l.map Prod.fst).Nodup →
      (∀ k ∈ l.map Prod.fst, k ∉ akeys acc) →
      l.foldl (fun a p => ainsert p.1 p.2 a) acc = acc ++ l := by
  induction l with
  | nil => intro acc _ _; simp
  | cons x t ih =>
    intro acc hnd hdisj
    rw [List.map_cons, List.nodup_cons] at hnd
    have hx : x.1 ∉ akeys acc := hdisj x.1 (by simp)
    rw [List.foldl_cons, ainsert_of_not_mem x.2 hx]
    rw [ih (acc ++ [x]) hnd.2 ?_]
    · rw [List.append_assoc]
      rfl
    · intro k hk
      rw [akeys_append, List.mem_append]
      rintro (hc | hc)
      · exact hdisj k (List.mem_cons_of_mem _ hk) hc
      · simp only [akeys, List.map_cons, List.map_nil, List.mem_singleton] at hc
        exact hnd.1 (hc ▸ hk)

theorem exportColsAux_all_empty {D : Type} (parse : String → Option (String × String))
    (l : List (String × D)) :
    ∀ (done : List (MSource D)) (c : MSource D),
      exportColsAux parse done (some c) (l.map (fun p => ("", p.1, p.2)))
        = some (done ++ [l.foldl (fun c p => pushColumn c p.1 p.2) c]) := by
  induction l with
  | nil => intro done c; rfl
  | cons x t ih =>
    intro done c
    simp only [List.map_cons, exportColsAux, if_pos rfl]
    exact ih done (pushColumn c x.1 x.2)

theorem foldl_pushColumn_char {D : Type} (l : List (String × D)) :
    ∀ (nm lk : String) (v0 : List (String × D)) (e0 : String) (d0 : D),
      l.foldl (fun c p => pushColumn c p.1 p.2)
          ⟨nm, lk, v0, some (e0, d0)⟩
        = ⟨nm, lk,
            (((e0, d0) :: l).dropLast).foldl (fun a p => ainsert p.1 p.2 a) v0,
            some (((e0, d0) :: l).getLast (List.cons_ne_nil _ _))⟩ := by
  induction l with
  | nil =>
    intro nm lk v0 e0 d0
    rfl
  | cons x t ih =>
    intro nm lk v0 e0 d0
    rw [List.foldl_cons]
    have hpush : pushColumn (⟨nm, lk, v0, some (e0, d0)⟩ : MSource D) x.1 x.2
        = ⟨nm, lk, ainsert e0 d0 v0, some (x.1, x.2)⟩ := rfl
    rw [hpush, ih nm lk (ainsert e0 d0 v0) x.1 x.2]
    have hdl : ((e0, d0) :: x :: t).dropLast = (e0, d0) :: ((x :: t).dropLast) := by
      rfl
    have hgl : ((e0, d0) :: x :: t).getLast (List.cons_ne_nil _ _)
        = ((x :: t).getLast (List.cons_ne_nil _ _)) :=
      List.getLast_cons _
    rw [hdl, hgl, List.foldl_cons]

/-- C1 counterexample: one source whose three columns all carry the
same row-2 email `"e"` with data `1`, `2`, `3`.  The rotation keeps
`summary = 3` (the last column) but `volunteers` ends as
`[("e", 2)]`: the earlier column `("e", 1)` has been lost (overwritten
under the duplicate email), so `volunteers` does NOT contain exactly
the earlier columns with none lost. -/
theorem c1_counterexample :
    exportMasterCols (fun s => if s = "" then none else some (s, s))
      [("L", "e", (1 : Nat)), ("", "e", 2), ("", "e", 3)]
      = some [⟨"L", "L", [("e", 2)], 3⟩] ∧
    (("e", 1) : String × Nat) ∉ ([("e", 2)] : List (String × Nat)) :=
  ⟨rfl, by decide⟩

/-- C1 (amended) — Summary-slot rotation: processing the columns of one
source left to right, the first column occupies the summary slot and
each later column first demotes the previous occupant into
`volunteers` under the previous column's row-2 email, then occupies
the slot.  Hence `summary` is the data of the source's last column,
and — PROVIDED the earlier columns' row-2 emails are pairwise
distinct — `volunteers` is exactly the list of earlier columns keyed
by their own emails, none lost or duplicated.  (With duplicate emails
an earlier column is overwritten; see the counterexample.) -/
theorem c1_amended_summary_rotation {D : Type}
    (parse : String → Option (String × String))
    (r0 link name : String) (hr0 : r0 ≠ "") (hp : parse r0 = some (link, name))
    (e0 : String) (d0 : D) (rest : List (String × D))
    (hnd : ((((e0, d0) :: rest).dropLast).map Prod.fst).Nodup) :
    exportMasterCols parse ((r0, e0, d0) :: rest.map (fun p => ("", p.1, p.2)))
      = some [⟨name, link, ((e0, d0) :: rest).dropLast,
          (((e0, d0) :: rest).getLast (List.cons_ne_nil _ _)).2⟩] := by
  unfold exportMasterCols
  have h1 : exportColsAux parse [] none
        ((r0, e0, d0) :: rest.map (fun p => ("", p.1, p.2)))
      = exportColsAux parse [] (some (pushColumn ⟨name, link, [], none⟩ e0 d0))
          (rest.map (fun p => ("", p.1, p.2))) := by
    simp only [exportColsAux, if_neg hr0, hp]
    rfl
  rw [h1]
  have h2 : pushColumn (⟨name, link, [], none⟩ : MSource D) e0 d0
      = ⟨name, link, [], some (e0, d0)⟩ := rfl
  rw [h2, exportColsAux_all_empty parse rest [] _]
  rw [foldl_pushColumn_char rest name link [] e0 d0]
  rw [foldl_ainsert_eq_append _ [] hnd (by intro k _; simp [akeys])]
  rfl

/-- Witness for the amended C1: two columns with distinct emails
`"a"`, `"b"`; the export yields `volunteers = [("a", 1)]` and
`summary = 2`. -/
theorem c1_amended_summary_rotation_witness :
    exportMasterCols (fun s => if s = "" then none else some (s, s))
      [("L", "a", (1 : Nat)), ("", "b", 2)]
      = some [⟨"L", "L", [("a", 1)], 2⟩] := by
  have h := c1_amended_summary_rotation (D := Nat)
    (fun s => if s = "" then none else some (s, s))
    "L" "L" "L" (by decide) (by decide) "a" 1 [("b", 2)] (by decide)
  simpa using h

/-- C8 counterexample: a template document whose only flaw is the
invalid `masterSpreadsheet.publicAccess` value `"bogus"`.  With
`strict = False`, `read_template` SUCCEEDS (warning + reset to the
default `null`), refuting the claim that it returns an error. -/
theorem c8_counterexample :
    readTemplateValidate false false
        ⟨some "bogus", none, "x", some true, some true, 100, 75⟩
      = some ⟨none, none, "x", some true, some true, 100, 75⟩ ∧
    (some "bogus" : Option String) ∉ PUBLIC_ACCESS_OPTIONS :=
  ⟨by decide, by decide⟩

/-- C8 (amended) — an invalid `publicAccess` value is a warning, not a
failure: `read_template` fails for this reason only in strict mode; in
non-strict mode (when no fatal check fires) it succeeds with the
offending value reset to a valid default. -/
theorem c8_amended_public_access (v : TemplateValues) (w0 : Bool)
    (hpa : v.masterPublicAccess ∉ PUBLIC_ACCESS_OPTIONS ∨
      v.volunteerPublicAccess ∉ PUBLIC_ACCESS_OPTIONS) :
    readTemplateValidate true w0 v = none ∧
    (¬countEmailPlaceholders v.volunteerTitle > 1 → ¬v.defaultBarCount ≤ 0 →
      ¬v.commentsRowHeight < 21 →
      ∃ v', readTemplateValidate false w0 v = some v' ∧
        v'.masterPublicAccess ∈ PUBLIC_ACCESS_OPTIONS ∧
        v'.volunteerPublicAccess ∈ PUBLIC_ACCESS_OPTIONS) := by
  have hw : (w0 || decide (v.masterPublicAccess ∉ PUBLIC_ACCESS_OPTIONS)
      || decide (v.volunteerPublicAccess ∉ PUBLIC_ACCESS_OPTIONS)
      || v.shareWithVolunteer.isNone || v.resize.isNone) = true := by
    rcases hpa with h | h <;> simp [h]
  constructor
  · simp only [readTemplateValidate, hw, Bool.and_true]
    split
    · rfl
    · rfl
  · intro h1 h2 h3
    simp only [readTemplateValidate]
    have hinv : (decide (countEmailPlaceholders v.volunteerTitle > 1)
        || decide (v.defaultBarCount ≤ 0) || decide (v.commentsRowHeight < 21)) = false := by
      simp [h1, h2, h3]
    rw [hinv]
    simp only [Bool.false_eq_true, if_false, Bool.false_and]
    refine ⟨_, rfl, ?_, ?_⟩
    · by_cases hm : v.masterPublicAccess ∈ PUBLIC_ACCESS_OPTIONS
      · rw [if_pos hm]
        exact hm
      · rw [if_neg hm]
        exact (by decide : (none : Option String) ∈ PUBLIC_ACCESS_OPTIONS)
    · by_cases hm : v.volunteerPublicAccess ∈ PUBLIC_ACCESS_OPTIONS
      · rw [if_pos hm]
        exact hm
      · rw [if_neg hm]
        exact (by decide : (none : Option String) ∈ PUBLIC_ACCESS_OPTIONS)

/-- Witness for the amended C8: the strict run on the counterexample
document fails. -/
theorem c8_amended_public_access_witness :
    readTemplateValidate true false
      ⟨some "bogus", none, "x", some true, some true, 100, 75⟩ = none :=
  (c8_amended_public_access
    ⟨some "bogus", none, "x", some true, some true, 100, 75⟩ false
    (Or.inl (by decide))).1

theorem setEntry_preserve {k email v : String}
    {m m' : List (String × List (String × String))}
    (hv : v ≠ "") (hm : ∀ p ∈ m, ∀ q ∈ p.2, q.2 ≠ "")
    (h : setEntry k email v m = some m') :
    ∀ p ∈ m', ∀ q ∈ p.2, q.2 ≠ "" := by
  unfold setEntry at h
  cases hl : alookup k m with
  | none => rw [hl] at h; exact absurd h (by simp)
  | some inner =>
    rw [hl] at h
    simp only [Option.some.injEq] at h
    subst h
    intro p hp q hq
    rcases mem_of_mem_ainsert hp with h1 | h1
    · subst h1
      rcases mem_of_mem_ainsert hq with h2 | h2
      · subst h2; exact hv
      · exact hm _ (alookup_mem hl) q h2
    · exact hm p h1 q hq

theorem foldlM_option_preserve {α β : Type} (P : β → Prop) (f : β → α → Option β)
    (hf : ∀ b a b', P b → f b a = some b' → P b') :
    ∀ (l : List α) (b res : β), P b → l.foldlM f b = some res → P res := by
  intro l
  induction l with
  | nil =>
    intro b res hb h
    simp only [List.foldlM_nil, Option.pure_def, Option.some.injEq] at h
    exact h ▸ hb
  | cons a t ih =>
    intro b res hb h
    rw [List.foldlM_cons] at h
    cases hfa : f b a with
    | none => rw [hfa] at h; exact absurd h (by simp)
    | some b' =>
      rw [hfa] at h
      simp only [Option.bind_eq_bind, Option.some_bind] at h
      exact ih b' res (hf b a b' hb hfa) h

theorem addVolunteerNotes_preserve (email : String)
    (nbars nfields : List (String × String))
    (st st' : FixedDoc (List (String × String)))
    (hst : notesClean st) (h : addVolunteerNotes email nbars nfields st = some st') :
    notesClean st' := by
  unfold addVolunteerNotes at h
  cases hb : nbars.foldlM (fun acc kv =>
      if kv.2 = "" then pure acc else setEntry kv.1 email kv.2 acc) st.bars with
  | none => rw [hb] at h; exact absurd h (by simp)
  | some bars =>
    rw [hb] at h
    cases hf : nfields.foldlM (fun acc kv =>
        if kv.1 = "bars" then pure acc
        else if kv.2 = "" then pure acc
        else setEntry kv.1 email kv.2 acc) st.fields with
    | none =>
      rw [hf] at h
      exact absurd h (by simp)
    | some fields =>
      rw [hf] at h
      simp only [Option.bind_eq_bind, Option.some_bind, Option.pure_def,
        Option.some.injEq] at h
      subst h
      constructor
      · refine foldlM_option_preserve (fun m => ∀ p ∈ m, ∀ q ∈ p.2, q.2 ≠ "")
          _ ?_ nfields st.fields fields hst.1 hf
        intro b a b' hbP hstep
        by_cases h1 : a.1 = "bars"
        · rw [if_pos h1] at hstep
          simp only [Option.pure_def, Option.some.injEq] at hstep
          exact hstep ▸ hbP
        · rw [if_neg h1] at hstep
          by_cases h2 : a.2 = ""
          · rw [if_pos h2] at hstep
            simp only [Option.pure_def, Option.some.injEq] at hstep
            exact hstep ▸ hbP
          · rw [if_neg h2] at hstep
            exact setEntry_preserve h2 hbP hstep
      · refine foldlM_option_preserve (fun m => ∀ p ∈ m, ∀ q ∈ p.2, q.2 ≠ "")
          _ ?_ nbars st.bars bars hst.2 hb
        intro b a b' hbP hstep
        by_cases h2 : a.2 = ""
        · rw [if_pos h2] at hstep
          simp only [Option.pure_def, Option.some.injEq] at hstep
          exact hstep ▸ hbP
        · rw [if_neg h2] at hstep
          exact setEntry_preserve h2 hbP hstep

theorem foldl_ainsert_values {V : Type} (dflt : V) (hs : List String) :
    ∀ acc : List (String × V), (∀ p ∈ acc, p.2 = dflt) →
      ∀ p ∈ hs.foldl (fun a k => ainsert k dflt a) acc, p.2 = dflt := by
  induction hs with
  | nil => intro acc hacc p hp; exact hacc p hp
  | cons hd t ih =>
    intro acc hacc p hp
    refine ih (ainsert hd dflt acc) ?_ p hp
    intro q hq
    rcases mem_of_mem_ainsert hq with h1 | h1
    · rw [h1]
    · exact hacc q h1

theorem makeDefault_notesClean (headers : List String) (N : Nat) :
    notesClean (makeDefault headers N true []) := by
  constructor
  · intro p hp q hq
    have hval : p.2 = ([] : List (String × String)) := by
      simp only [makeDefault] at hp
      exact foldl_ainsert_values [] headers [] (by simp) p (mem_of_mem_aerase hp)
    rw [hval] at hq
    simp at hq
  · intro p hp q hq
    have hval : p.2 = ([] : List (String × String)) := by
      simp only [makeDefault] at hp
      rcases List.mem_map.mp hp with ⟨i, _, hi⟩
      rw [← hi]
    rw [hval] at hq
    simp at hq

/-- C10 — Non-empty aggregation entries: after any sequence of
`add_volunteer` calls starting from the default notes structure, every
per-email entry in each metadata field's dict and each bar's dict has
a non-empty value — an empty-string submission never creates an entry. -/
theorem c10_nonempty_note_entries (headers : List String) (N : Nat)
    (vs : List (String × List (String × String) × List (String × String)))
    (st : FixedDoc (List (String × String)))
    (h : runAddVolunteerNotes vs (makeDefault headers N true []) = some st) :
    notesClean st := by
  refine foldlM_option_preserve notesClean _ ?_ vs
    (makeDefault headers N true []) st (makeDefault_notesClean headers N) h
  intro b a b' hb hstep
  exact addVolunteerNotes_preserve a.1 a.2.1 a.2.2 b b' hb hstep

/-- Witness for C10: one volunteer submits an empty bar 1 note and a
non-empty `tempo` note; the empty one creates no entry and the
resulting state is clean. -/
theorem c10_nonempty_note_entries_witness :
    runAddVolunteerNotes [("a@x", [("1", "")], [("tempo", "hi")])]
        (makeDefault ["tempo"] 1 true [])
      = some ⟨[("tempo", [("a@x", "hi")])], [("1", [])]⟩ ∧
    notesClean ⟨[("tempo", [("a@x", "hi")])], [("1", [])]⟩ :=
  ⟨by decide, c10_nonempty_note_entries ["tempo"] 1
    [("a@x", [("1", "")], [("tempo", "hi")])]
    ⟨[("tempo", [("a@x", "hi")])], [("1", [])]⟩ (by decide)⟩
